import Mathlib

/-!
A shallow embedding, in Lean 4, of ninja's missing-dependency scanner
(`src/missing_deps.cc`) and of the stat cache (`stat_cache.cc`), together
with theorems checking the natural-language specification against the code.

Graph nodes, edges and rules are addressed by natural-number identifiers
(modelling the stable pointer identities of the C++ objects).  Machine
recursion without a structural measure (the scanner's depth-first walks)
is made total with an explicit fuel parameter; the source's recursion
terminates exactly when enough fuel makes the fuel-exhaustion branch
unreachable, which the acyclicity preconditions of the spec guarantee.
-/

namespace NinjaScan

/-- The reachability memo (`AdjacencyMap` in the source): the C++ keeps a
two-level map `Edge* -> (Edge* -> bool)`; since the outer insertion of an
empty inner map has no observable effect on lookups, we model it as one
association list keyed by the `(from, tgt)` pair, with the same
insert-only-if-absent behaviour as `std::map::insert`. -/
abbrev Memo := List ((Nat × Nat) × Bool)

/-- Lookup in the adjacency map (`adjacency_map_.find` / inner `find`). -/
def memoLookup : Memo → Nat × Nat → Option Bool
  | [], _ => none
  | (k, b) :: rest, k' => if k = k' then some b else memoLookup rest k'

/-- Insertion with `std::map::insert` semantics: only when the key is absent. -/
def memoInsert (m : Memo) (k : Nat × Nat) (b : Bool) : Memo :=
  match memoLookup m k with
  | some _ => m
  | none => (k, b) :: m

/-- The build graph as seen by the scanner, per the spec's Graph Model
interface: nodes, edges and rules are identifiers; every lookup the
scanner performs is a field.  `depfileRaw` and `canonNode` model the
depfile adapter interface (parse result of the on-disk depfile for an
edge — `none` on parse failure or absence — and path canonicalization
resolving a string to the Node identity the graph would assign). -/
structure Graph where
  nodePath : Nat → String
  nodeInEdge : Nat → Option Nat
  edgeInputs : Nat → List Nat
  edgeRule : Nat → Nat
  ruleName : Nat → String
  edgeDepsBinding : Nat → String
  depfileRaw : Nat → Option (List String)
  canonNode : String → Nat

/-- The fresh, unmemoized recursive reachability computation, straight
from the spec's recursive definition and the body of
`MissingDependencyScanner::PathExistsBetween` with the memo removed:
reachable(from, tgt) iff some direct input node of `tgt` has a producing
edge `e` with `e = from` or reachable(from, e).  Fuel-indexed; on an
acyclic graph any fuel exceeding the edge height gives the fixed answer. -/
def pathExistsRec (g : Graph) : Nat → Nat → Nat → Bool
  | 0, _, _ => false
  | fuel + 1, fr, tgt =>
    (g.edgeInputs tgt).any fun input =>
      match g.nodeInEdge input with
      | none => false
      | some e => e == fr || pathExistsRec g fuel fr e

/-- The `for (auto const& input : tgt->inputs_)` loop of
`MissingDependencyScanner::PathExistsBetween`, with the source's
short-circuit `e == from || PathExistsBetween(from, e)` and `break` on the
first success; the recursive call is abstracted as `peb` so that the
pair of functions is structurally recursive. -/
def pathExistsInputs (g : Graph) (peb : Nat → Memo → Bool × Memo) (fr : Nat) :
    List Nat → Memo → Bool × Memo
  | [], m => (false, m)
  | input :: rest, m =>
    match g.nodeInEdge input with
    | none => pathExistsInputs g peb fr rest m
    | some e =>
      if e = fr then (true, m)
      else
        let r := peb e m
        if r.1 then (true, r.2) else pathExistsInputs g peb fr rest r.2

/-- Embedding of `MissingDependencyScanner::PathExistsBetween`: consult
the memo first; on a miss, scan `tgt`'s inputs (with early exit on the
first hit), then record the computed answer.  The memo is threaded
explicitly; the `fuel` parameter makes the recursion total. -/
def PathExistsBetween (g : Graph) : Nat → Nat → Nat → Memo → Bool × Memo
  | 0, _, _, m => (false, m)
  | fuel + 1, fr, tgt, m =>
    match memoLookup m (fr, tgt) with
    | some b => (b, m)
    | none =>
      let r := pathExistsInputs g (fun e m2 => PathExistsBetween g fuel fr e m2) fr
        (g.edgeInputs tgt) m
      (r.1, memoInsert r.2 (fr, tgt) r.1)

/-- An acyclicity certificate for the explicit graph: a height function on
edges that strictly decreases from a consuming edge to the producing edge
of any of its inputs.  Such a function exists exactly when the explicit
edge-dependency relation is acyclic on the edges that matter. -/
def EdgeHeightCert (g : Graph) (h : Nat → Nat) : Prop :=
  ∀ tgt input e, input ∈ g.edgeInputs tgt → g.nodeInEdge input = some e → h e < h tgt

/-- Every answer stored in the memo agrees with the fresh unmemoized
recursive computation (at its canonical fuel). -/
def MemoOK (g : Graph) (h : Nat → Nat) (m : Memo) : Prop :=
  ∀ fr tgt b, memoLookup m (fr, tgt) = some b → b = pathExistsRec g (h tgt + 1) fr tgt

lemma list_any_congrOn {α : Type} (l : List α) (p q : α → Bool)
    (hpq : ∀ a ∈ l, p a = q a) : l.any p = l.any q := by
  induction l with
  | nil => rfl
  | cons x xs ih =>
    simp only [List.any_cons]
    rw [hpq x (by simp), ih (fun a ha => hpq a (by simp [ha]))]

/-- On an acyclic graph, the fuel-indexed recursive computation is
independent of the fuel once the fuel exceeds the target edge's height. -/
lemma pathExistsRec_stable (g : Graph) (h : Nat → Nat) (cert : EdgeHeightCert g h) :
    ∀ n tgt fr fuel, h tgt ≤ n → h tgt < fuel →
      pathExistsRec g fuel fr tgt = pathExistsRec g (h tgt + 1) fr tgt := by
  intro n
  induction n using Nat.strong_induction_on with
  | _ n ih =>
    intro tgt fr fuel hn hf
    obtain ⟨f, rfl⟩ : ∃ f, fuel = f + 1 := ⟨fuel - 1, by omega⟩
    show pathExistsRec g (f + 1) fr tgt = pathExistsRec g (h tgt + 1) fr tgt
    simp only [pathExistsRec]
    apply list_any_congrOn
    intro input hin
    cases he : g.nodeInEdge input with
    | none => rfl
    | some e =>
      have hlt : h e < h tgt := cert tgt input e hin he
      have h1 : pathExistsRec g f fr e = pathExistsRec g (h e + 1) fr e :=
        ih (h e) (by omega) e fr f (by omega) (by omega)
      have h2 : pathExistsRec g (h tgt) fr e = pathExistsRec g (h e + 1) fr e :=
        ih (h e) (by omega) e fr (h tgt) (by omega) (by omega)
      simp only [h1, h2]

lemma memoLookup_memoInsert (m : Memo) (k : Nat × Nat) (b : Bool) (k' : Nat × Nat) :
    memoLookup (memoInsert m k b) k'
      = match memoLookup m k' with
        | some b' => some b'
        | none => if k = k' then some b else none := by
  unfold memoInsert
  cases hk : memoLookup m k with
  | some b0 =>
    cases h' : memoLookup m k' with
    | some b' => rfl
    | none =>
      by_cases he : k = k'
      · subst he; rw [hk] at h'; exact absurd h' (by simp)
      · simp [he]
  | none =>
    show memoLookup ((k, b) :: m) k' = _
    simp only [memoLookup]
    by_cases he : k = k'
    · subst he; rw [hk]
    · simp only [he, if_false, if_neg he]
      cases memoLookup m k' <;> rfl

lemma MemoOK_insert (g : Graph) (h : Nat → Nat) (m : Memo) (fr tgt : Nat) (b : Bool)
    (hm : MemoOK g h m) (hb : b = pathExistsRec g (h tgt + 1) fr tgt) :
    MemoOK g h (memoInsert m (fr, tgt) b) := by
  intro fr' tgt' b' hb'
  rw [memoLookup_memoInsert] at hb'
  cases hl : memoLookup m (fr', tgt') with
  | some b0 =>
    rw [hl] at hb'
    exact hm fr' tgt' b' (by rw [hl]; exact hb')
  | none =>
    rw [hl] at hb'
    by_cases he : (fr, tgt) = (fr', tgt')
    · obtain ⟨h1, h2⟩ := Prod.mk.injEq .. ▸ he
      simp only [he, if_pos] at hb'
      cases hb'
      rw [← h1, ← h2]
      exact hb
    · simp [he] at hb'

/-- The empty memo (a fresh scan session) is trivially consistent. -/
lemma MemoOK_nil (g : Graph) (h : Nat → Nat) : MemoOK g h [] := by
  intro fr tgt b hb
  simp [memoLookup] at hb

lemma pathExistsRec_succ (g : Graph) (fuel fr tgt : Nat) :
    pathExistsRec g (fuel + 1) fr tgt =
      (g.edgeInputs tgt).any (fun i => match g.nodeInEdge i with
        | none => false
        | some e => e == fr || pathExistsRec g fuel fr e) := rfl

/-- One unfolding of the fresh computation, rewriting each input's
recursive call to its canonical fuel (possible on an acyclic graph). -/
lemma pathExistsRec_unfold (g : Graph) (h : Nat → Nat) (cert : EdgeHeightCert g h)
    (fr tgt : Nat) :
    pathExistsRec g (h tgt + 1) fr tgt =
      (g.edgeInputs tgt).any (fun i => match g.nodeInEdge i with
        | none => false
        | some e => e == fr || pathExistsRec g (h e + 1) fr e) := by
  rw [pathExistsRec_succ]
  apply list_any_congrOn
  intro i hi
  cases hie : g.nodeInEdge i with
  | none => rfl
  | some e =>
    have hlt : h e < h tgt := cert tgt i e hi hie
    show (e == fr || pathExistsRec g (h tgt) fr e) = (e == fr || pathExistsRec g (h e + 1) fr e)
    rw [pathExistsRec_stable g h cert (h e) e fr (h tgt) (le_refl _) hlt]

lemma pathExistsInputs_nil (g : Graph) (peb : Nat → Memo → Bool × Memo)
    (fr : Nat) (m' : Memo) :
    pathExistsInputs g peb fr [] m' = (false, m') := rfl

lemma pathExistsInputs_cons_none (g : Graph) (peb : Nat → Memo → Bool × Memo)
    (fr i : Nat) (rest : List Nat) (m' : Memo) (hie : g.nodeInEdge i = none) :
    pathExistsInputs g peb fr (i :: rest) m'
      = pathExistsInputs g peb fr rest m' := by
  simp only [pathExistsInputs]
  rw [hie]

lemma pathExistsInputs_cons_some (g : Graph) (f fr i : Nat) (rest : List Nat) (m' : Memo)
    (e : Nat) (hie : g.nodeInEdge i = some e) :
    pathExistsInputs g (fun e2 m2 => PathExistsBetween g f fr e2 m2) fr (i :: rest) m' =
      (if e = fr then (true, m')
       else if (PathExistsBetween g f fr e m').1 then (true, (PathExistsBetween g f fr e m').2)
       else pathExistsInputs g (fun e2 m2 => PathExistsBetween g f fr e2 m2) fr rest
         (PathExistsBetween g f fr e m').2) := by
  simp only [pathExistsInputs]
  rw [hie]

lemma PathExistsBetween_succ (g : Graph) (f fr tgt : Nat) (m : Memo) :
    PathExistsBetween g (f + 1) fr tgt m =
      match memoLookup m (fr, tgt) with
      | some b => (b, m)
      | none =>
        let r := pathExistsInputs g (fun e2 m2 => PathExistsBetween g f fr e2 m2) fr
          (g.edgeInputs tgt) m
        (r.1, memoInsert r.2 (fr, tgt) r.1) := rfl

/-- Main invariant of the memoized oracle: starting from any consistent
memo and enough fuel, `PathExistsBetween` returns the fresh unmemoized
answer and leaves the memo consistent. -/
lemma PathExistsBetween_ok (g : Graph) (h : Nat → Nat) (cert : EdgeHeightCert g h) :
    ∀ fuel fr tgt m, MemoOK g h m → h tgt < fuel →
      (PathExistsBetween g fuel fr tgt m).1 = pathExistsRec g (h tgt + 1) fr tgt ∧
      MemoOK g h (PathExistsBetween g fuel fr tgt m).2 := by
  intro fuel
  induction fuel using Nat.strong_induction_on with
  | _ fuel ih =>
    intro fr tgt m hm hf
    obtain ⟨f, rfl⟩ : ∃ f, fuel = f + 1 := ⟨fuel - 1, by omega⟩
    have inputs_ok : ∀ ins m', MemoOK g h m' →
        (∀ i ∈ ins, ∀ e, g.nodeInEdge i = some e → h e < f) →
        (pathExistsInputs g (fun e2 m2 => PathExistsBetween g f fr e2 m2) fr ins m').1 =
          ins.any (fun i => match g.nodeInEdge i with
            | none => false
            | some e => e == fr || pathExistsRec g (h e + 1) fr e) ∧
        MemoOK g h
          (pathExistsInputs g (fun e2 m2 => PathExistsBetween g f fr e2 m2) fr ins m').2 := by
      intro ins
      induction ins with
      | nil =>
        intro m' hm' _
        rw [pathExistsInputs_nil]
        exact ⟨rfl, hm'⟩
      | cons i rest ihl =>
        intro m' hm' hbound
        have hrest : ∀ j ∈ rest, ∀ e, g.nodeInEdge j = some e → h e < f :=
          fun j hj e hje => hbound j (by simp [hj]) e hje
        cases hie : g.nodeInEdge i with
        | none =>
          rw [pathExistsInputs_cons_none g _ fr i rest m' hie]
          have := ihl m' hm' hrest
          rw [List.any_cons]
          refine ⟨?_, this.2⟩
          rw [this.1, hie]
          simp
        | some e =>
          rw [pathExistsInputs_cons_some g f fr i rest m' e hie, List.any_cons, hie]
          by_cases hef : e = fr
          · rw [if_pos hef]
            refine ⟨?_, hm'⟩
            have hbq : (e == fr) = true := by simp [hef]
            simp [hbq]
          · rw [if_neg hef]
            have hfe : h e < f := hbound i (by simp) e hie
            have hrec := ih f (by omega) fr e m' hm' hfe
            have hbq : (e == fr) = false := by simp [hef]
            cases hr1 : (PathExistsBetween g f fr e m').1 with
            | true =>
              rw [hr1] at hrec
              constructor
              · simp [hbq, ← hrec.1]
              · simpa using hrec.2
            | false =>
              rw [hr1] at hrec
              have hrr := ihl (PathExistsBetween g f fr e m').2 hrec.2 hrest
              constructor
              · simp [hbq, ← hrec.1, hrr.1]
              · simpa using hrr.2
    rw [PathExistsBetween_succ]
    cases hl : memoLookup m (fr, tgt) with
    | some b =>
      exact ⟨hm fr tgt b hl, hm⟩
    | none =>
      have hbound : ∀ i ∈ g.edgeInputs tgt, ∀ e, g.nodeInEdge i = some e → h e < f :=
        fun i hi e hie => by have := cert tgt i e hi hie; omega
      have hin := inputs_ok (g.edgeInputs tgt) m hm hbound
      have hval : (pathExistsInputs g (fun e2 m2 => PathExistsBetween g f fr e2 m2) fr
          (g.edgeInputs tgt) m).1 = pathExistsRec g (h tgt + 1) fr tgt := by
        rw [hin.1, pathExistsRec_unfold g h cert fr tgt]
      exact ⟨hval, MemoOK_insert g h _ fr tgt _ hin.2 hval⟩

/-- C1: for every pair of edges `(from, tgt)`, the memoized
`PathExistsBetween` (run in a session whose memo is consistent — e.g. any
memo grown from the empty one — on an explicit graph that is acyclic, as
witnessed by an edge-height certificate, and frozen for the scan) returns
true iff some direct input node of `tgt` has a producing edge `e` with
`e = from` or reachability holds recursively from `from` to `e`; it
returns false when `tgt` has no input with a producing edge; the answer
equals a fresh unmemoized recursive computation of the definition; and the
memo it leaves behind is again consistent. -/
theorem PathExistsBetween_spec (g : Graph) (h : Nat → Nat) (cert : EdgeHeightCert g h)
    (m : Memo) (hm : MemoOK g h m) (fr tgt fuel : Nat) (hf : h tgt < fuel) :
    ((PathExistsBetween g fuel fr tgt m).1 = true ↔
      ∃ input ∈ g.edgeInputs tgt, ∃ e, g.nodeInEdge input = some e ∧
        (e = fr ∨ pathExistsRec g (h e + 1) fr e = true)) ∧
    ((∀ input ∈ g.edgeInputs tgt, g.nodeInEdge input = none) →
      (PathExistsBetween g fuel fr tgt m).1 = false) ∧
    (PathExistsBetween g fuel fr tgt m).1 = pathExistsRec g (h tgt + 1) fr tgt ∧
    MemoOK g h (PathExistsBetween g fuel fr tgt m).2 := by
  obtain ⟨hval, hmemo⟩ := PathExistsBetween_ok g h cert fuel fr tgt m hm hf
  refine ⟨?_, ?_, hval, hmemo⟩
  · rw [hval, pathExistsRec_unfold g h cert fr tgt]
    simp only [List.any_eq_true]
    constructor
    · rintro ⟨i, hi, hmatch⟩
      refine ⟨i, hi, ?_⟩
      cases hie : g.nodeInEdge i with
      | none => rw [hie] at hmatch; exact absurd hmatch (by simp)
      | some e =>
        rw [hie] at hmatch
        simp only [Bool.or_eq_true, beq_iff_eq] at hmatch
        exact ⟨e, rfl, hmatch⟩
    · rintro ⟨i, hi, e, hie, hor⟩
      refine ⟨i, hi, ?_⟩
      rw [hie]
      simp only [Bool.or_eq_true, beq_iff_eq]
      exact hor
  · intro hall
    rw [hval, pathExistsRec_unfold g h cert fr tgt]
    rw [List.any_eq_false]
    intro i hi
    rw [hall i hi]
    simp

/-- A tiny concrete graph for exercising the reachability oracle: node 5
is produced by edge 0 and consumed by edge 1; nothing else exists. -/
def G1 : Graph where
  nodePath := fun _ => ""
  nodeInEdge := fun n => if n = 5 then some 0 else none
  edgeInputs := fun t => if t = 1 then [5] else []
  edgeRule := fun _ => 0
  ruleName := fun _ => ""
  edgeDepsBinding := fun _ => ""
  depfileRaw := fun _ => none
  canonNode := fun _ => 0

lemma G1cert : EdgeHeightCert G1 (fun e => e) := by
  intro tgt input e hin he
  by_cases h1 : tgt = 1
  · subst h1
    simp only [G1] at hin
    simp at hin
    subst hin
    simp only [G1] at he
    simp at he
    show e < 1
    omega
  · simp only [G1] at hin
    simp [h1] at hin

/-- Witness for C1: the memoized oracle agrees with the fresh recursive
computation on the concrete graph `G1`, from the empty memo. -/
theorem PathExistsBetween_spec_witness :
    (PathExistsBetween G1 2 0 1 []).1 = pathExistsRec G1 ((fun e => e) 1 + 1) 0 1 :=
  (PathExistsBetween_spec G1 (fun e => e) G1cert [] (MemoOK_nil G1 (fun e => e))
    0 1 2 (by decide)).2.2.1

/-! ## The scan session state and the scanner -/

/-- Insertion into a session set (`std::set` members such as `seen_`),
modelled as a duplicate-free list kept in first-insertion order. -/
def insertSet {α : Type} [DecidableEq α] (s : List α) (x : α) : List α :=
  if x ∈ s then s else s ++ [x]

/-- The mutable state of one scan session: the scanner's member
collections (`seen_`, `nodes_missing_deps_`, `generated_nodes_`,
`generator_rules_`, `missing_dep_path_count_`, `adjacency_map_`), the
deps-log contents reachable through `deps_log_` (carried in the state so
that the read-only contract is a provable frame property), and the
sequence of `OnMissingDep(node, path, rule)` calls the delegate received. -/
structure ScanState where
  seen : List Nat
  nodesMissingDeps : List Nat
  generatedNodes : List Nat
  generatorRules : List Nat
  missingDepPathCount : Nat
  adjacencyMap : Memo
  depsLog : Nat → Option (List Nat)
  reports : List (Nat × String × Nat)

/-- A fresh scan session over a given (read-only) deps log: every
aggregate collection starts empty, as the spec's ScanSession state
requires. -/
def initState (log : Nat → Option (List Nat)) : ScanState :=
  { seen := [], nodesMissingDeps := [], generatedNodes := [], generatorRules := [],
    missingDepPathCount := 0, adjacencyMap := [], depsLog := log, reports := [] }

/-- Embedding of `NodeStoringImplicitDepLoader::ProcessDepfileDeps`:
canonicalize every parsed depfile path, resolve it to its node, and push
the node onto the output vector; return `true`.  Unlike the base loader it
records nothing anywhere else; the deps log is passed through untouched so
that the read-only scan contract is visible in the type. -/
def ProcessDepfileDeps (g : Graph) (depsLog : Nat → Option (List Nat))
    (depfileIns : List String) (out : List Nat) :
    (Nat → Option (List Nat)) × List Nat × Bool :=
  (depsLog, out ++ depfileIns.map g.canonNode, true)

/-- Modelled from the spec: `ImplicitDepLoader::LoadDeps` (graph.cc, not
part of the excerpt) reads and parses the edge's on-disk depfile and hands
the parsed path list to the (overridden) `ProcessDepfileDeps`; absence of
a depfile or a parse failure is non-fatal and yields no dependencies. -/
def LoadDeps (g : Graph) (depsLog : Nat → Option (List Nat)) (edge : Nat) :
    (Nat → Option (List Nat)) × List Nat :=
  match g.depfileRaw edge with
  | none => (depsLog, [])
  | some paths =>
    let r := ProcessDepfileDeps g depsLog paths []
    (r.1, r.2.1)

/-- The first loop of `ProcessNodeDeps`: walk the dependency array; as
soon as a dependency is the reserved `build.ninja` path the whole call
returns with no effect (`none`); otherwise collect the set of distinct
producing edges of the dependencies, in first-discovery order. -/
def collectDeplogEdges (g : Graph) : List Nat → List Nat → Option (List Nat)
  | [], acc => some acc
  | dn :: rest, acc =>
    if g.nodePath dn = "build.ninja" then none
    else
      match g.nodeInEdge dn with
      | some e => collectDeplogEdges g rest (insertSet acc e)
      | none => collectDeplogEdges g rest acc

/-- The reachability filter loop of `ProcessNodeDeps`: a candidate
producing edge with no explicit path to `edge` is a missing dependency;
the memo is threaded through the queries. -/
def computeMissing (g : Graph) (fuel edge : Nat) : List Nat → Memo → List Nat × Memo
  | [], m => ([], m)
  | de :: rest, m =>
    let r := PathExistsBetween g fuel de edge m
    let rr := computeMissing g fuel edge rest r.2
    (if r.1 then rr.1 else de :: rr.1, rr.2)

/-- The inner reporting loop of `ProcessNodeDeps` for one missing edge
`item`: every dependency-array entry produced by `item` is reported to the
delegate and added to the generated-inputs and generator-rules sets, and
`item`'s rule name to the per-call distinct-name set. -/
def reportOne (g : Graph) (node item : Nat) :
    List Nat → ScanState × List String → ScanState × List String
  | [], acc => acc
  | dn :: rest, acc =>
    if g.nodeInEdge dn = some item then
      reportOne g node item rest
        ({ acc.1 with
            generatedNodes := insertSet acc.1.generatedNodes dn,
            generatorRules := insertSet acc.1.generatorRules (g.edgeRule item),
            reports := acc.1.reports ++ [(node, g.nodePath dn, g.edgeRule item)] },
          insertSet acc.2 (g.ruleName (g.edgeRule item)))
    else reportOne g node item rest acc

/-- The outer reporting loop of `ProcessNodeDeps` over the missing edges. -/
def reportMissing (g : Graph) (node : Nat) (depNodes : List Nat) :
    List Nat → ScanState × List String → ScanState × List String
  | [], acc => acc
  | item :: rest, acc =>
    reportMissing g node depNodes rest (reportOne g node item depNodes acc)

/-- Embedding of `MissingDependencyScanner::ProcessNodeDeps`.  The `none`
branch of the producing-edge lookup is unreachable: callers only pass
nodes with a producing edge (the C++ dereferences it unconditionally). -/
def ProcessNodeDeps (g : Graph) (fuel node : Nat) (depNodes : List Nat)
    (st : ScanState) : ScanState :=
  match g.nodeInEdge node with
  | none => st
  | some edge =>
    match collectDeplogEdges g depNodes [] with
    | none => st
    | some des =>
      let r := computeMissing g fuel edge des st.adjacencyMap
      let st1 := { st with adjacencyMap := r.2 }
      if r.1 = [] then st1
      else
        let rr := reportMissing g node depNodes r.1 (st1, [])
        { rr.1 with
            missingDepPathCount := rr.1.missingDepPathCount + rr.2.length,
            nodesMissingDeps := insertSet rr.1.nodesMissingDeps node }

/-- The dependency-classification tail of `ProcessNode`: deps-log mode
when the edge's "deps" binding is non-empty (a node with no recorded deps
is not an error), otherwise a one-shot depfile parse whose result is
handed to `ProcessNodeDeps` only when non-empty. -/
def classifyNode (g : Graph) (fuel node edge : Nat) (st : ScanState) : ScanState :=
  if g.edgeDepsBinding edge ≠ "" then
    match st.depsLog node with
    | some depNodes => ProcessNodeDeps g fuel node depNodes st
    | none => st
  else
    let r := LoadDeps g st.depsLog edge
    let st1 := { st with depsLog := r.1 }
    if r.2 ≠ [] then ProcessNodeDeps g fuel node r.2 st1 else st1

/-- Embedding of `MissingDependencyScanner::ProcessNode`: no-op on an
absent node, on a node with no producing edge, and on a node already seen;
otherwise mark the node seen, recurse into every input of the producing
edge, then classify this node's dependencies.  The fuel bounds the
recursion depth; the source instead relies on the explicit graph being
acyclic. -/
def ProcessNode (g : Graph) : Nat → Option Nat → ScanState → ScanState
  | _, none, st => st
  | 0, some _, st => st
  | fuel + 1, some node, st =>
    match g.nodeInEdge node with
    | none => st
    | some edge =>
      if node ∈ st.seen then st
      else
        let st1 := { st with seen := insertSet st.seen node }
        let st2 := (g.edgeInputs edge).foldl
          (fun s i => ProcessNode g fuel (some i) s) st1
        classifyNode g fuel node edge st2

/-- Embedding of `MissingDependencyScanner::HadMissingDeps`. -/
def HadMissingDeps (st : ScanState) : Bool := !st.nodesMissingDeps.isEmpty

/-- Embedding of `MissingDependencyScanner::PrintStats`, as the list of
lines written to standard output (each inserted `"\n"` ends one line; the
pieces are concatenated exactly as the stream inserters do, including the
double space produced by the adjacent pieces `" rules) "` and
`" without..."`). -/
def PrintStats (st : ScanState) : List String :=
  ("Processed " ++ toString st.seen.length ++ " nodes.") ::
    (if HadMissingDeps st then
      ["Error: There are " ++ toString st.missingDepPathCount ++
         " missing dependency paths.",
       toString st.nodesMissingDeps.length ++ " targets had depfile dependencies on " ++
         toString st.generatedNodes.length ++ " distinct generated inputs " ++ "(from " ++
         toString st.generatorRules.length ++ " rules) " ++
         " without a non-depfile dep path to the generator.",
       "There might be build flakiness if any of the targets listed above are built alone, or not late enough, in a clean output directory."]
    else
      ["No missing dependencies on generated files found."])

/-! ## Basic properties of the session-set operations -/

lemma mem_insertSet {α : Type} [DecidableEq α] {s : List α} {x y : α} :
    y ∈ insertSet s x ↔ y ∈ s ∨ y = x := by
  unfold insertSet
  by_cases h : x ∈ s
  · rw [if_pos h]
    constructor
    · exact Or.inl
    · rintro (hy | rfl)
      · exact hy
      · exact h
  · rw [if_neg h]
    simp

lemma insertSet_idem {α : Type} [DecidableEq α] (s : List α) (x : α) :
    insertSet (insertSet s x) x = insertSet s x := by
  unfold insertSet
  by_cases h : x ∈ s
  · rw [if_pos h, if_pos h]
  · rw [if_neg h, if_pos (by simp)]

lemma insertSet_toFinset {α : Type} [DecidableEq α] (s : List α) (x : α) :
    (insertSet s x).toFinset = insert x s.toFinset := by
  unfold insertSet
  by_cases h : x ∈ s
  · rw [if_pos h]
    exact (Finset.insert_eq_self.mpr (List.mem_toFinset.mpr h)).symm
  · rw [if_neg h]
    ext a
    simp [or_comm]

lemma insertSet_nodup {α : Type} [DecidableEq α] (s : List α) (x : α)
    (h : s.Nodup) : (insertSet s x).Nodup := by
  unfold insertSet
  by_cases hx : x ∈ s
  · rwa [if_pos hx]
  · rw [if_neg hx, List.nodup_append]
    refine ⟨h, List.nodup_singleton x, ?_⟩
    intro b hb hbx
    rw [List.mem_singleton] at hbx
    subst hbx
    exact hx hb

lemma foldl_insertSet_length {α : Type} [DecidableEq α] :
    ∀ (xs ns : List α), ns.Nodup →
      (xs.foldl insertSet ns).length = (ns ++ xs).toFinset.card := by
  intro xs
  induction xs with
  | nil =>
    intro ns h
    rw [List.foldl_nil, List.append_nil, List.card_toFinset,
      List.dedup_eq_self.mpr h]
  | cons x tl ih =>
    intro ns h
    rw [List.foldl_cons, ih _ (insertSet_nodup ns x h)]
    congr 1
    ext a
    simp only [List.toFinset_append, Finset.mem_union, insertSet_toFinset,
      Finset.mem_insert, List.mem_toFinset, List.toFinset_cons]
    tauto

/-! ## Frame lemmas: which state components each operation can touch -/

lemma reportOne_frame (g : Graph) (node item : Nat) :
    ∀ l acc, ((reportOne g node item l acc).1.seen = acc.1.seen) ∧
      ((reportOne g node item l acc).1.depsLog = acc.1.depsLog) ∧
      ((reportOne g node item l acc).1.missingDepPathCount
        = acc.1.missingDepPathCount) ∧
      ((reportOne g node item l acc).1.nodesMissingDeps
        = acc.1.nodesMissingDeps) ∧
      ((reportOne g node item l acc).1.adjacencyMap = acc.1.adjacencyMap) := by
  intro l
  induction l with
  | nil => intro acc; exact ⟨rfl, rfl, rfl, rfl, rfl⟩
  | cons dn rest ih =>
    intro acc
    simp only [reportOne]
    by_cases hd : g.nodeInEdge dn = some item
    · rw [if_pos hd]
      exact ih _
    · rw [if_neg hd]
      exact ih _

lemma reportMissing_frame (g : Graph) (node : Nat) (depNodes : List Nat) :
    ∀ md acc, ((reportMissing g node depNodes md acc).1.seen = acc.1.seen) ∧
      ((reportMissing g node depNodes md acc).1.depsLog = acc.1.depsLog) ∧
      ((reportMissing g node depNodes md acc).1.missingDepPathCount
        = acc.1.missingDepPathCount) ∧
      ((reportMissing g node depNodes md acc).1.nodesMissingDeps
        = acc.1.nodesMissingDeps) ∧
      ((reportMissing g node depNodes md acc).1.adjacencyMap
        = acc.1.adjacencyMap) := by
  intro md
  induction md with
  | nil => intro acc; exact ⟨rfl, rfl, rfl, rfl, rfl⟩
  | cons it rest ih =>
    intro acc
    simp only [reportMissing]
    obtain ⟨h1, h2, h3, h4, h5⟩ := ih (reportOne g node it depNodes acc)
    obtain ⟨g1, g2, g3, g4, g5⟩ := reportOne_frame g node it depNodes acc
    exact ⟨h1.trans g1, h2.trans g2, h3.trans g3, h4.trans g4, h5.trans g5⟩

lemma ProcessNodeDeps_frame (g : Graph) (fuel node : Nat) (depNodes : List Nat)
    (st : ScanState) :
    (ProcessNodeDeps g fuel node depNodes st).seen = st.seen ∧
    (ProcessNodeDeps g fuel node depNodes st).depsLog = st.depsLog := by
  cases he : g.nodeInEdge node with
  | none => simp [ProcessNodeDeps, he]
  | some edge =>
    simp only [ProcessNodeDeps, he]
    cases hc : collectDeplogEdges g depNodes [] with
    | none => simp [hc]
    | some des =>
      simp only [hc]
      by_cases hmd : (computeMissing g fuel edge des st.adjacencyMap).1 = []
      · rw [if_pos hmd]
        exact ⟨rfl, rfl⟩
      · rw [if_neg hmd]
        obtain ⟨h1, h2, _, _, _⟩ := reportMissing_frame g node depNodes
          (computeMissing g fuel edge des st.adjacencyMap).1
          ({ st with adjacencyMap := (computeMissing g fuel edge des st.adjacencyMap).2 }, [])
        exact ⟨h1, h2⟩

lemma LoadDeps_log (g : Graph) (log : Nat → Option (List Nat)) (edge : Nat) :
    (LoadDeps g log edge).1 = log := by
  unfold LoadDeps
  cases g.depfileRaw edge <;> rfl

lemma classifyNode_frame (g : Graph) (fuel node edge : Nat) (st : ScanState) :
    (classifyNode g fuel node edge st).seen = st.seen ∧
    (classifyNode g fuel node edge st).depsLog = st.depsLog := by
  simp only [classifyNode]
  by_cases hb : g.edgeDepsBinding edge ≠ ""
  · rw [if_pos hb]
    cases st.depsLog node with
    | none => exact ⟨rfl, rfl⟩
    | some depNodes => exact ProcessNodeDeps_frame g fuel node depNodes st
  · rw [if_neg hb]
    by_cases hr : (LoadDeps g st.depsLog edge).2 ≠ []
    · rw [if_pos hr]
      obtain ⟨h1, h2⟩ := ProcessNodeDeps_frame g fuel node (LoadDeps g st.depsLog edge).2
        { st with depsLog := (LoadDeps g st.depsLog edge).1 }
      refine ⟨h1, h2.trans ?_⟩
      exact LoadDeps_log g st.depsLog edge
    · rw [if_neg hr]
      exact ⟨rfl, LoadDeps_log g st.depsLog edge⟩

/-! ## Behaviour of ProcessNode: guards, marking, monotonicity -/

lemma ProcessNode_none (g : Graph) (fuel : Nat) (st : ScanState) :
    ProcessNode g fuel none st = st := by
  cases fuel <;> rfl

lemma ProcessNode_noEdge (g : Graph) (fuel n : Nat) (st : ScanState)
    (h : g.nodeInEdge n = none) : ProcessNode g fuel (some n) st = st := by
  cases fuel with
  | zero => rfl
  | succ f => simp only [ProcessNode, h]

lemma ProcessNode_seen (g : Graph) (fuel n : Nat) (st : ScanState)
    (h : n ∈ st.seen) : ProcessNode g fuel (some n) st = st := by
  cases fuel with
  | zero => rfl
  | succ f =>
    simp only [ProcessNode]
    cases g.nodeInEdge n with
    | none => rfl
    | some edge => simp [h]

lemma ProcessNode_log (g : Graph) :
    ∀ fuel n st, (ProcessNode g fuel n st).depsLog = st.depsLog := by
  intro fuel
  induction fuel with
  | zero => intro n st; cases n <;> rfl
  | succ f ih =>
    intro n st
    cases n with
    | none => rfl
    | some node =>
      cases he : g.nodeInEdge node with
      | none => simp only [ProcessNode, he]
      | some edge =>
        simp only [ProcessNode, he]
        by_cases hs : node ∈ st.seen
        · simp [hs]
        · rw [if_neg hs]
          rw [(classifyNode_frame g f node edge _).2]
          have hfold : ∀ (l : List Nat) (s : ScanState),
              ((l.foldl (fun s i => ProcessNode g f (some i) s) s).depsLog
                = s.depsLog) := by
            intro l
            induction l with
            | nil => intro s; rfl
            | cons a tl iht => intro s; rw [List.foldl_cons, iht, ih]
          rw [hfold]

lemma ProcessNode_seen_mono (g : Graph) :
    ∀ fuel n st x, x ∈ st.seen → x ∈ (ProcessNode g fuel n st).seen := by
  intro fuel
  induction fuel with
  | zero => intro n st x hx; cases n <;> exact hx
  | succ f ih =>
    intro n st x hx
    cases n with
    | none => exact hx
    | some node =>
      cases he : g.nodeInEdge node with
      | none => simp only [ProcessNode, he]; exact hx
      | some edge =>
        simp only [ProcessNode, he]
        by_cases hs : node ∈ st.seen
        · simp only [if_pos hs]; exact hx
        · rw [if_neg hs]
          rw [(classifyNode_frame g f node edge _).1]
          have hfold : ∀ (l : List Nat) (s : ScanState), x ∈ s.seen →
              x ∈ (l.foldl (fun s i => ProcessNode g f (some i) s) s).seen := by
            intro l
            induction l with
            | nil => intro s hx2; exact hx2
            | cons a tl iht =>
              intro s hx2
              rw [List.foldl_cons]
              exact iht _ (ih (some a) s x hx2)
          apply hfold
          exact mem_insertSet.mpr (Or.inl hx)

lemma ProcessNode_marks (g : Graph) (f node : Nat) (st : ScanState) (edge : Nat)
    (he : g.nodeInEdge node = some edge) :
    node ∈ (ProcessNode g (f + 1) (some node) st).seen := by
  simp only [ProcessNode, he]
  by_cases hs : node ∈ st.seen
  · rw [if_pos hs]; exact hs
  · rw [if_neg hs]
    rw [(classifyNode_frame g f node edge _).1]
    have hfold : ∀ (l : List Nat) (s : ScanState), node ∈ s.seen →
        node ∈ (l.foldl (fun s i => ProcessNode g f (some i) s) s).seen := by
      intro l
      induction l with
      | nil => intro s hx2; exact hx2
      | cons a tl iht =>
        intro s hx2
        rw [List.foldl_cons]
        exact iht _ (ProcessNode_seen_mono g f (some a) s node hx2)
    apply hfold
    exact mem_insertSet.mpr (Or.inr rfl)

lemma ProcessNode_step (g : Graph) (f node edge : Nat) (st : ScanState)
    (he : g.nodeInEdge node = some edge) (hs : node ∉ st.seen) :
    ProcessNode g (f + 1) (some node) st =
      classifyNode g f node edge
        ((g.edgeInputs edge).foldl (fun s i => ProcessNode g f (some i) s)
          { st with seen := insertSet st.seen node }) := by
  simp only [ProcessNode, he]
  rw [if_neg hs]

lemma collectDeplogEdges_none (g : Graph) :
    ∀ depNodes acc, (∃ dn ∈ depNodes, g.nodePath dn = "build.ninja") →
      collectDeplogEdges g depNodes acc = none := by
  intro depNodes
  induction depNodes with
  | nil =>
    rintro acc ⟨dn, hdn, _⟩
    simp at hdn
  | cons d rest ih =>
    rintro acc ⟨dn, hdn, hpath⟩
    simp only [collectDeplogEdges]
    by_cases hd : g.nodePath d = "build.ninja"
    · rw [if_pos hd]
    · rw [if_neg hd]
      have hdn' : dn ∈ rest := by
        rcases List.mem_cons.mp hdn with h | h
        · exact absurd (h ▸ hpath) hd
        · exact h
      cases g.nodeInEdge d with
      | some e => exact ih _ ⟨dn, hdn', hpath⟩
      | none => exact ih _ ⟨dn, hdn', hpath⟩

/-- A concrete graph with a genuine missing-dependency gap: edge 0 (rule
0, "genrule") produces node 10 `gen.h`; edge 1 (rule 1, "cc") produces
node 20 `out.o` and has no explicit inputs, so no explicit path reaches
edge 0 from edge 1; node 7 is the reserved `build.ninja` file. -/
def GW : Graph where
  nodePath := fun n =>
    if n = 7 then "build.ninja"
    else if n = 10 then "gen.h"
    else if n = 20 then "out.o"
    else ""
  nodeInEdge := fun n => if n = 10 then some 0 else if n = 20 then some 1 else none
  edgeInputs := fun _ => []
  edgeRule := fun e => e
  ruleName := fun r => if r = 0 then "genrule" else "cc"
  edgeDepsBinding := fun e => if e = 1 then "gcc" else ""
  depfileRaw := fun _ => none
  canonNode := fun _ => 0

/-- Deps-log contents for the concrete sessions: node 20's recorded
dependency list mentions node 10 twice, as a depfile repeating one path
would produce. -/
def logW : Nat → Option (List Nat) := fun n => if n = 20 then some [10, 10] else none

/-- C4: reserved-path suppression: if any dependency's path is exactly the
literal `build.ninja`, ProcessNodeDeps returns immediately with the state
unchanged — zero OnMissingDep reports for the node and untouched session
aggregates, regardless of any other unreachable generated dependencies in
the same set. -/
theorem ProcessNodeDeps_buildNinja (g : Graph) (fuel node : Nat)
    (depNodes : List Nat) (st : ScanState)
    (hbn : ∃ dn ∈ depNodes, g.nodePath dn = "build.ninja") :
    ProcessNodeDeps g fuel node depNodes st = st := by
  cases he : g.nodeInEdge node with
  | none => simp [ProcessNodeDeps, he]
  | some edge =>
    simp only [ProcessNodeDeps, he]
    rw [collectDeplogEdges_none g depNodes [] hbn]

/-- Witness for C4: a dependency set holding the `build.ninja` node (7)
next to the unreachable generated dependency (10). -/
theorem ProcessNodeDeps_buildNinja_witness :
    ProcessNodeDeps GW 3 20 [10, 7] (initState logW) = initState logW :=
  ProcessNodeDeps_buildNinja GW 3 20 [10, 7] (initState logW) (by decide)

/-- C5: ProcessNode is idempotent within one session: a call on an absent
node, on a node with no producing edge, or on a node already in the
visited set is a no-op leaving the whole session state unchanged; and
running ProcessNode twice on the same node equals running it once, so the
dependency-classification step runs at most once per node per session. -/
theorem ProcessNode_idempotent (g : Graph) (fuel n : Nat) (st : ScanState) :
    ProcessNode g fuel none st = st ∧
    (g.nodeInEdge n = none → ProcessNode g fuel (some n) st = st) ∧
    (n ∈ st.seen → ProcessNode g fuel (some n) st = st) ∧
    ProcessNode g fuel (some n) (ProcessNode g fuel (some n) st) =
      ProcessNode g fuel (some n) st := by
  refine ⟨ProcessNode_none g fuel st, ProcessNode_noEdge g fuel n st,
    ProcessNode_seen g fuel n st, ?_⟩
  cases fuel with
  | zero => rfl
  | succ f =>
    cases he : g.nodeInEdge n with
    | none =>
      rw [ProcessNode_noEdge g (f + 1) n st he]
      exact ProcessNode_noEdge g (f + 1) n st he
    | some edge =>
      exact ProcessNode_seen g (f + 1) n _ (ProcessNode_marks g f n st edge he)

/-- Witness for C5 on the concrete session. -/
theorem ProcessNode_idempotent_witness :
    ProcessNode GW 5 none (initState logW) = initState logW ∧
    (GW.nodeInEdge 20 = none →
      ProcessNode GW 5 (some 20) (initState logW) = initState logW) ∧
    (20 ∈ (initState logW).seen →
      ProcessNode GW 5 (some 20) (initState logW) = initState logW) ∧
    ProcessNode GW 5 (some 20) (ProcessNode GW 5 (some 20) (initState logW)) =
      ProcessNode GW 5 (some 20) (initState logW) :=
  ProcessNode_idempotent GW 5 20 (initState logW)

lemma classifyNode_noDeps (g : Graph) (fuel node edge : Nat) (st : ScanState)
    (hb : g.edgeDepsBinding edge = "") (hdf : g.depfileRaw edge = none) :
    classifyNode g fuel node edge st = st := by
  have hld : LoadDeps g st.depsLog edge = (st.depsLog, []) := by
    unfold LoadDeps
    rw [hdf]
  simp only [classifyNode]
  rw [if_neg (by simp [hb])]
  simp only [hld]
  rw [if_neg (by simp)]

/-- C6: a node whose producing edge has an empty "deps" binding and whose
depfile is absent or fails to parse gets an empty dependency set; the
classification step is then a total no-op — zero reports, no aggregate
updates, and no error is raised or propagated (every operation is total) —
and when such a node also has no inputs, ProcessNode's only effect is
marking the node visited. -/
theorem classifyNode_emptyDeps (g : Graph) (fuel node edge : Nat) (st : ScanState)
    (hb : g.edgeDepsBinding edge = "") (hdf : g.depfileRaw edge = none) :
    LoadDeps g st.depsLog edge = (st.depsLog, []) ∧
    classifyNode g fuel node edge st = st ∧
    (g.nodeInEdge node = some edge → g.edgeInputs edge = [] → node ∉ st.seen →
      ProcessNode g (fuel + 1) (some node) st
        = { st with seen := insertSet st.seen node }) := by
  refine ⟨by unfold LoadDeps; rw [hdf],
    classifyNode_noDeps g fuel node edge st hb hdf, ?_⟩
  intro he hni hs
  rw [ProcessNode_step g fuel node edge st he hs, hni, List.foldl_nil]
  exact classifyNode_noDeps g fuel node edge _ hb hdf

/-- Witness for C6: node 10 of the concrete graph (empty "deps" binding on
its producing edge 0, no depfile). -/
theorem classifyNode_emptyDeps_witness :
    LoadDeps GW (initState logW).depsLog 0 = ((initState logW).depsLog, []) ∧
    classifyNode GW 4 10 0 (initState logW) = initState logW ∧
    (GW.nodeInEdge 10 = some 0 → GW.edgeInputs 0 = [] →
      10 ∉ (initState logW).seen →
      ProcessNode GW 5 (some 10) (initState logW)
        = { initState logW with seen := insertSet (initState logW).seen 10 }) :=
  classifyNode_emptyDeps GW 4 10 0 (initState logW) (by rfl) (by rfl)

/-- C7: the scanner never writes to the deps log: the overriding
ProcessDepfileDeps stores the resolved nodes only into the transient
output vector (returning `true` and the log untouched), and the log
contents are identical before and after any sequence of ProcessNode
calls. -/
theorem scanner_log_readOnly (g : Graph) (ns : List (Option Nat)) (fuel : Nat)
    (st : ScanState) (log : Nat → Option (List Nat)) (ins : List String)
    (out : List Nat) :
    (ProcessDepfileDeps g log ins out).1 = log ∧
    (ProcessDepfileDeps g log ins out).2.1 = out ++ ins.map g.canonNode ∧
    (ProcessDepfileDeps g log ins out).2.2 = true ∧
    (ns.foldl (fun s n => ProcessNode g fuel n s) st).depsLog = st.depsLog := by
  refine ⟨rfl, rfl, rfl, ?_⟩
  induction ns generalizing st with
  | nil => rfl
  | cons a tl ih => rw [List.foldl_cons, ih, ProcessNode_log]

/-! ## Membership and accounting lemmas for ProcessNodeDeps -/

lemma computeMissing_subset (g : Graph) (fuel edge : Nat) :
    ∀ des m e, e ∈ (computeMissing g fuel edge des m).1 → e ∈ des := by
  intro des
  induction des with
  | nil => intro m e he; simp [computeMissing] at he
  | cons de rest ih =>
    intro m e he
    simp only [computeMissing] at he
    by_cases hp : (PathExistsBetween g fuel de edge m).1 = true
    · rw [if_pos hp] at he
      exact List.mem_cons_of_mem de (ih _ e he)
    · rw [if_neg hp] at he
      rcases List.mem_cons.mp he with h | h
      · exact h ▸ List.mem_cons_self de rest
      · exact List.mem_cons_of_mem de (ih _ e h)

lemma collectDeplogEdges_mem (g : Graph) :
    ∀ depNodes acc des, collectDeplogEdges g depNodes acc = some des →
      ∀ e ∈ des, e ∈ acc ∨ ∃ dn ∈ depNodes, g.nodeInEdge dn = some e := by
  intro depNodes
  induction depNodes with
  | nil =>
    intro acc des h e he
    simp only [collectDeplogEdges, Option.some.injEq] at h
    exact Or.inl (h ▸ he)
  | cons dn rest ih =>
    intro acc des h e he
    simp only [collectDeplogEdges] at h
    by_cases hbn : g.nodePath dn = "build.ninja"
    · rw [if_pos hbn] at h
      cases h
    · rw [if_neg hbn] at h
      cases hie : g.nodeInEdge dn with
      | some e2 =>
        rw [hie] at h
        rcases ih _ _ h e he with hacc | ⟨d, hd, hde⟩
        · rcases mem_insertSet.mp hacc with h1 | h1
          · exact Or.inl h1
          · exact Or.inr ⟨dn, List.mem_cons_self dn rest, h1 ▸ hie⟩
        · exact Or.inr ⟨d, List.mem_cons_of_mem dn hd, hde⟩
      | none =>
        rw [hie] at h
        rcases ih _ _ h e he with hacc | ⟨d, hd, hde⟩
        · exact Or.inl hacc
        · exact Or.inr ⟨d, List.mem_cons_of_mem dn hd, hde⟩

lemma reportOne_names (g : Graph) (node item : Nat) :
    ∀ l (acc : ScanState × List String),
      (reportOne g node item l acc).2
        = if ∃ dn ∈ l, g.nodeInEdge dn = some item
          then insertSet acc.2 (g.ruleName (g.edgeRule item)) else acc.2 := by
  intro l
  induction l with
  | nil =>
    intro acc
    rw [if_neg (by simp)]
    rfl
  | cons dn rest ih =>
    intro acc
    simp only [reportOne]
    by_cases hd : g.nodeInEdge dn = some item
    · rw [if_pos hd, ih]
      rw [if_pos (show ∃ d ∈ dn :: rest, g.nodeInEdge d = some item
          from ⟨dn, List.mem_cons_self dn rest, hd⟩)]
      by_cases hr : ∃ d ∈ rest, g.nodeInEdge d = some item
      · rw [if_pos hr]
        show insertSet (insertSet acc.2 (g.ruleName (g.edgeRule item)))
            (g.ruleName (g.edgeRule item)) = _
        exact insertSet_idem _ _
      · rw [if_neg hr]
    · rw [if_neg hd, ih]
      by_cases hr : ∃ d ∈ rest, g.nodeInEdge d = some item
      · obtain ⟨d, hdm, hde⟩ := hr
        rw [if_pos (⟨d, hdm, hde⟩ : ∃ d2 ∈ rest, g.nodeInEdge d2 = some item),
          if_pos (⟨d, List.mem_cons_of_mem dn hdm, hde⟩ :
            ∃ d2 ∈ dn :: rest, g.nodeInEdge d2 = some item)]
      · rw [if_neg hr, if_neg (by
          rintro ⟨d, hdm, hde⟩
          rcases List.mem_cons.mp hdm with h1 | h1
          · exact hd (h1 ▸ hde)
          · exact hr ⟨d, h1, hde⟩)]

lemma reportMissing_names (g : Graph) (node : Nat) (depNodes : List Nat) :
    ∀ md (acc : ScanState × List String),
      (∀ it ∈ md, ∃ dn ∈ depNodes, g.nodeInEdge dn = some it) →
      (reportMissing g node depNodes md acc).2
        = md.foldl (fun ns it => insertSet ns (g.ruleName (g.edgeRule it))) acc.2 := by
  intro md
  induction md with
  | nil => intro acc _; rfl
  | cons it rest ih =>
    intro acc hall
    simp only [reportMissing, List.foldl_cons]
    rw [ih _ (fun j hj => hall j (List.mem_cons_of_mem it hj))]
    congr 1
    rw [reportOne_names]
    rw [if_pos (hall it (List.mem_cons_self it rest))]

/-- The exact sequence of OnMissingDep calls one ProcessNodeDeps
invocation emits: for each missing edge in order, one call per
dependency-array entry whose producing edge is that missing edge. -/
def missingReports (g : Graph) (node : Nat) (depNodes : List Nat) :
    List Nat → List (Nat × String × Nat)
  | [] => []
  | item :: rest =>
    depNodes.filterMap (fun dn =>
      if g.nodeInEdge dn = some item
      then some (node, g.nodePath dn, g.edgeRule item) else none)
    ++ missingReports g node depNodes rest

lemma reportOne_reports (g : Graph) (node item : Nat) :
    ∀ l (acc : ScanState × List String),
      (reportOne g node item l acc).1.reports
        = acc.1.reports ++ l.filterMap (fun dn =>
            if g.nodeInEdge dn = some item
            then some (node, g.nodePath dn, g.edgeRule item) else none) := by
  intro l
  induction l with
  | nil => intro acc; simp only [List.filterMap_nil, List.append_nil]; rfl
  | cons dn rest ih =>
    intro acc
    simp only [reportOne, List.filterMap_cons]
    by_cases hd : g.nodeInEdge dn = some item
    · simp only [if_pos hd, ih]
      simp
    · simp only [if_neg hd, ih]

lemma reportMissing_reports (g : Graph) (node : Nat) (depNodes : List Nat) :
    ∀ md (acc : ScanState × List String),
      (reportMissing g node depNodes md acc).1.reports
        = acc.1.reports ++ missingReports g node depNodes md := by
  intro md
  induction md with
  | nil => intro acc; simp only [missingReports, List.append_nil]; rfl
  | cons it rest ih =>
    intro acc
    simp only [reportMissing, missingReports]
    rw [ih, reportOne_reports]
    simp

/-- The spec's real-gap scenario: edge 0 (A, rule "genh") outputs node 1
`a.h`; edge 1 (B, rule "touch") inputs node 1 and outputs node 2 `b.o`;
edge 2 (C, rule "cat") outputs node 3 and has no explicit inputs, and C's
depfile records `b.o`. -/
def GScn : Graph where
  nodePath := fun n =>
    if n = 1 then "a.h" else if n = 2 then "b.o" else if n = 3 then "c.out" else ""
  nodeInEdge := fun n =>
    if n = 1 then some 0 else if n = 2 then some 1 else if n = 3 then some 2 else none
  edgeInputs := fun e => if e = 1 then [1] else []
  edgeRule := fun e => e
  ruleName := fun r => if r = 0 then "genh" else if r = 1 then "touch" else "cat"
  edgeDepsBinding := fun _ => ""
  depfileRaw := fun e => if e = 2 then some ["b.o"] else none
  canonNode := fun s => if s = "b.o" then 2 else 99

/-- Counterexample to C2 as stated: node 20's deps-log array lists node 10
twice, and the delegate receives the (node 20, `gen.h`, rule 0) call twice
— once per array occurrence, not once per (consumer, dependency) pair. -/
theorem OnMissingDep_per_occurrence_counterexample :
    (ProcessNode GW 5 (some 20) (initState logW)).reports
      = [(20, "gen.h", 0), (20, "gen.h", 0)] := by decide

/-- C2 (amended): OnMissingDep is invoked once per occurrence in the
dependency array of a dependency node whose producing edge is missing —
so a duplicated array entry yields duplicated calls — and in the spec's
real-gap scenario exactly one OnMissingDep(C's output, "b.o", B's rule)
call occurs, the cumulative problem count rises by one, and C's output
node is added to the gaps set. -/
theorem ProcessNodeDeps_reports_spec (g : Graph) (fuel node : Nat)
    (depNodes : List Nat) (st : ScanState) (edge : Nat) (des : List Nat)
    (he : g.nodeInEdge node = some edge)
    (hdes : collectDeplogEdges g depNodes [] = some des) :
    (ProcessNodeDeps g fuel node depNodes st).reports
      = st.reports ++ missingReports g node depNodes
          (computeMissing g fuel edge des st.adjacencyMap).1 ∧
    (ProcessNode GScn 5 (some 3) (initState (fun _ => none))).reports
      = [(3, "b.o", 1)] ∧
    (ProcessNode GScn 5 (some 3) (initState (fun _ => none))).missingDepPathCount = 1 ∧
    3 ∈ (ProcessNode GScn 5 (some 3) (initState (fun _ => none))).nodesMissingDeps := by
  refine ⟨?_, by decide, by decide, by decide⟩
  simp only [ProcessNodeDeps, he, hdes]
  by_cases hmd : (computeMissing g fuel edge des st.adjacencyMap).1 = []
  · rw [if_pos hmd, hmd]
    simp only [missingReports, List.append_nil]
  · rw [if_neg hmd]
    exact reportMissing_reports g node depNodes
      (computeMissing g fuel edge des st.adjacencyMap).1
      ({ st with adjacencyMap := (computeMissing g fuel edge des st.adjacencyMap).2 }, [])

/-- Witness for the amended C2 on the scenario graph itself. -/
theorem ProcessNodeDeps_reports_spec_witness :
    (ProcessNodeDeps GScn 4 3 [2] (initState (fun _ => none))).reports
      = (initState (fun _ => none)).reports ++ missingReports GScn 3 [2]
          (computeMissing GScn 4 2 [1] (initState (fun _ => none)).adjacencyMap).1 ∧
    (ProcessNode GScn 5 (some 3) (initState (fun _ => none))).reports
      = [(3, "b.o", 1)] ∧
    (ProcessNode GScn 5 (some 3) (initState (fun _ => none))).missingDepPathCount = 1 ∧
    3 ∈ (ProcessNode GScn 5 (some 3) (initState (fun _ => none))).nodesMissingDeps :=
  ProcessNodeDeps_reports_spec GScn 4 3 [2] (initState (fun _ => none)) 2 [1]
    (by decide) (by decide)

/-- C3: when at least one missing-dependency edge is found, the cumulative
problem count increases by exactly the number of DISTINCT rule names among
the missing edges for the node (missing edges sharing one rule name count
once, not once per edge), and the node is added to the nodes-with-gaps
set. -/
theorem ProcessNodeDeps_count_spec (g : Graph) (fuel node : Nat)
    (depNodes : List Nat) (st : ScanState) (edge : Nat) (des : List Nat)
    (he : g.nodeInEdge node = some edge)
    (hdes : collectDeplogEdges g depNodes [] = some des)
    (hne : (computeMissing g fuel edge des st.adjacencyMap).1 ≠ []) :
    (ProcessNodeDeps g fuel node depNodes st).missingDepPathCount
      = st.missingDepPathCount
        + ((computeMissing g fuel edge des st.adjacencyMap).1.map
            (fun e => g.ruleName (g.edgeRule e))).dedup.length ∧
    node ∈ (ProcessNodeDeps g fuel node depNodes st).nodesMissingDeps := by
  have hall : ∀ it ∈ (computeMissing g fuel edge des st.adjacencyMap).1,
      ∃ dn ∈ depNodes, g.nodeInEdge dn = some it := by
    intro it hit
    have h1 := computeMissing_subset g fuel edge des st.adjacencyMap it hit
    rcases collectDeplogEdges_mem g depNodes [] des hdes it h1 with h2 | h2
    · simp at h2
    · exact h2
  simp only [ProcessNodeDeps, he, hdes]
  rw [if_neg hne]
  constructor
  · show (reportMissing g node depNodes (computeMissing g fuel edge des st.adjacencyMap).1
        ({ st with adjacencyMap := (computeMissing g fuel edge des st.adjacencyMap).2 },
          [])).1.missingDepPathCount
        + (reportMissing g node depNodes (computeMissing g fuel edge des st.adjacencyMap).1
        ({ st with adjacencyMap := (computeMissing g fuel edge des st.adjacencyMap).2 },
          [])).2.length = _
    rw [(reportMissing_frame g node depNodes (computeMissing g fuel edge des st.adjacencyMap).1
      ({ st with adjacencyMap := (computeMissing g fuel edge des st.adjacencyMap).2 },
        [])).2.2.1]
    rw [reportMissing_names g node depNodes (computeMissing g fuel edge des st.adjacencyMap).1
      ({ st with adjacencyMap := (computeMissing g fuel edge des st.adjacencyMap).2 }, [])
      hall]
    show st.missingDepPathCount + _ = st.missingDepPathCount + _
    congr 1
    rw [show ((({ st with adjacencyMap :=
        (computeMissing g fuel edge des st.adjacencyMap).2 } : ScanState),
        ([] : List String))).2 = ([] : List String) from rfl]
    rw [← List.foldl_map, foldl_insertSet_length _ _ List.nodup_nil]
    rw [List.nil_append, List.card_toFinset]
  · show node ∈ insertSet
      (reportMissing g node depNodes (computeMissing g fuel edge des st.adjacencyMap).1
        ({ st with adjacencyMap := (computeMissing g fuel edge des st.adjacencyMap).2 },
          [])).1.nodesMissingDeps node
    exact mem_insertSet.mpr (Or.inr rfl)

/-- Witness for C3 on the scenario graph. -/
theorem ProcessNodeDeps_count_spec_witness :
    (ProcessNodeDeps GScn 4 3 [2] (initState (fun _ => none))).missingDepPathCount
      = (initState (fun _ => none)).missingDepPathCount
        + ((computeMissing GScn 4 2 [1] (initState (fun _ => none)).adjacencyMap).1.map
            (fun e => GScn.ruleName (GScn.edgeRule e))).dedup.length ∧
    3 ∈ (ProcessNodeDeps GScn 4 3 [2] (initState (fun _ => none))).nodesMissingDeps :=
  ProcessNodeDeps_count_spec GScn 4 3 [2] (initState (fun _ => none)) 2 [1]
    (by decide) (by decide) (by decide)

/-- Counterexample to C8 as stated: in a session with one gap, the exact
summary line the claim specifies — with a single space between `rules)`
and `without` — is not among the printed lines (the code writes the
adjacent pieces `" rules) "` and `" without..."`, giving two spaces). -/
theorem PrintStats_singleSpace_counterexample :
    HadMissingDeps (ProcessNode GW 5 (some 20) (initState logW)) = true ∧
    "1 targets had depfile dependencies on 1 distinct generated inputs (from 1 rules) without a non-depfile dep path to the generator."
      ∉ PrintStats (ProcessNode GW 5 (some 20) (initState logW)) :=
  ⟨by decide, by decide⟩

/-- C8 (amended): with at least one gap, PrintStats prints the processed
count, then exactly `Error: There are <K> missing dependency paths.` with
K the cumulative problem count, then the summary line with A, B, C the
sizes of the nodes-with-gaps, generated-inputs and generator-rules sets —
with two spaces between `rules)` and `without`, as the adjacent stream
pieces produce — then the fixed advisory sentence. -/
theorem PrintStats_spec (st : ScanState) (hg : HadMissingDeps st = true) :
    PrintStats st =
      ["Processed " ++ toString st.seen.length ++ " nodes.",
       "Error: There are " ++ toString st.missingDepPathCount
         ++ " missing dependency paths.",
       toString st.nodesMissingDeps.length ++ " targets had depfile dependencies on "
         ++ toString st.generatedNodes.length ++ " distinct generated inputs (from "
         ++ toString st.generatorRules.length
         ++ " rules)  without a non-depfile dep path to the generator.",
       "There might be build flakiness if any of the targets listed above are built alone, or not late enough, in a clean output directory."] := by
  unfold PrintStats
  rw [if_pos hg]
  have m1 : (" distinct generated inputs " ++ "(from ")
      = " distinct generated inputs (from " := by decide
  have m2 : (" rules) " ++ " without a non-depfile dep path to the generator.")
      = " rules)  without a non-depfile dep path to the generator." := by decide
  rw [← m1, ← m2]
  simp only [String.append_assoc]

/-- Witness for the amended C8 at a concrete gap session. -/
theorem PrintStats_spec_witness :
    PrintStats (ScanState.mk [20] [20] [10] [0] 1 [] logW [(20, "gen.h", 0)])
      = ["Processed 1 nodes.",
         "Error: There are 1 missing dependency paths.",
         "1 targets had depfile dependencies on 1 distinct generated inputs (from 1 rules)  without a non-depfile dep path to the generator.",
         "There might be build flakiness if any of the targets listed above are built alone, or not late enough, in a clean output directory."] := by
  rw [PrintStats_spec _ (by decide)]
  decide

/-! ## The stat cache (`stat_cache.cc`) -/

/-- A `FileStat` record: pointer identity is modelled by an allocation id;
`node` models the `node_` back-pointer (`none` = NULL), which a fresh
FileStat starts without. -/
structure FileStat where
  id : Nat
  path : String
  node : Option Nat
deriving DecidableEq

/-- The `StatCache`: the `paths_` map as an association list in insertion
order, plus the allocation counter modelling `new FileStat(...)` pointer
freshness. -/
structure StatCache where
  paths : List (String × FileStat)
  nextId : Nat

/-- Lookup in `paths_` (`paths_.find(path.c_str())`, keyed by the string
contents). -/
def lookupPath : List (String × FileStat) → String → Option FileStat
  | [], _ => none
  | (k, fs) :: rest, p => if k = p then some fs else lookupPath rest p

/-- Embedding of `StatCache::GetFile`: return the cached FileStat when the
path is present; otherwise allocate a fresh FileStat (null node) keyed by
its own path, store it, and return it. -/
def GetFile (c : StatCache) (path : String) : FileStat × StatCache :=
  match lookupPath c.paths path with
  | some fs => (fs, c)
  | none =>
    let fs : FileStat := FileStat.mk c.nextId path none
    (fs, StatCache.mk (c.paths ++ [(path, fs)]) (c.nextId + 1))

/-- The scan loop of `StatCache::SpellcheckFile`, parameterized by the
edit-distance function: an entry strictly improving the running minimum
and carrying a non-null node becomes the new candidate. -/
def spellcheckLoop (d : String → String → Nat) (path : String) :
    List (String × FileStat) → Nat → Option FileStat → Option FileStat
  | [], _, result => result
  | (k, fs) :: rest, minDist, result =>
    let distance := d k path
    if distance < minDist ∧ fs.node.isSome = true then
      spellcheckLoop d path rest distance (some fs)
    else
      spellcheckLoop d path rest minDist result

/-- Embedding of `StatCache::SpellcheckFile`, with
`kMaxValidEditDistance = 3`.  Modelled from the spec: `EditDistance`
(edit_distance.cc, outside the excerpt) is taken as an arbitrary distance
function `d`. -/
def SpellcheckFile (d : String → String → Nat) (c : StatCache) (path : String) :
    Option FileStat :=
  spellcheckLoop d path c.paths (3 + 1) none

lemma lookupPath_append_self (l : List (String × FileStat)) (p : String) (fs : FileStat)
    (h : lookupPath l p = none) : lookupPath (l ++ [(p, fs)]) p = some fs := by
  induction l with
  | nil => simp [lookupPath]
  | cons a rest ih =>
    obtain ⟨k, fs2⟩ := a
    simp only [lookupPath] at h
    simp only [List.cons_append, lookupPath]
    by_cases hk : k = p
    · rw [if_pos hk] at h
      cases h
    · rw [if_neg hk] at h ⊢
      exact ih h

/-- C9: GetFile is a caching constructor: a second GetFile on the same
path returns the very same FileStat with the cache unchanged; the first
call on an uncached path appends exactly one entry, keyed by that path and
mapping to the returned stat; a call on a cached path returns the stored
stat and leaves the cache untouched. -/
theorem GetFile_spec (c : StatCache) (path : String) :
    (GetFile (GetFile c path).2 path).1 = (GetFile c path).1 ∧
    (GetFile (GetFile c path).2 path).2 = (GetFile c path).2 ∧
    (lookupPath c.paths path = none →
      (GetFile c path).2.paths = c.paths ++ [(path, (GetFile c path).1)] ∧
      (GetFile c path).2.paths.length = c.paths.length + 1) ∧
    (∀ fs, lookupPath c.paths path = some fs → GetFile c path = (fs, c)) := by
  cases hl : lookupPath c.paths path with
  | some fs =>
    have h1 : GetFile c path = (fs, c) := by simp [GetFile, hl]
    have h2 : (GetFile (GetFile c path).2 path) = (fs, c) := by
      rw [h1]
      show GetFile c path = (fs, c)
      exact h1
    refine ⟨?_, ?_, ?_, ?_⟩
    · rw [h2, h1]
    · rw [h2, h1]
    · intro h
      simp at h
    · intro fs2 hfs2
      injection hfs2 with e
      rw [← e]
      exact h1
  | none =>
    have h1 : GetFile c path
        = (FileStat.mk c.nextId path none,
           StatCache.mk (c.paths ++ [(path, FileStat.mk c.nextId path none)])
             (c.nextId + 1)) := by
      simp [GetFile, hl]
    have h2 : lookupPath (c.paths ++ [(path, FileStat.mk c.nextId path none)]) path
        = some (FileStat.mk c.nextId path none) :=
      lookupPath_append_self c.paths path _ hl
    have h3 : GetFile (GetFile c path).2 path = ((GetFile c path).1, (GetFile c path).2) := by
      rw [h1]
      show GetFile (StatCache.mk (c.paths ++ [(path, FileStat.mk c.nextId path none)])
        (c.nextId + 1)) path = _
      simp [GetFile, h2]
    refine ⟨?_, ?_, ?_, ?_⟩
    · rw [h3]
    · rw [h3]
    · intro _
      rw [h1]
      exact ⟨rfl, by simp⟩
    · intro fs2 hfs2
      simp at hfs2

/-- Witness for C9 on a concrete cache. -/
theorem GetFile_spec_witness :
    (GetFile (GetFile (StatCache.mk [] 0) ("a")).2 ("a")).1
      = (GetFile (StatCache.mk [] 0) ("a")).1 ∧
    (GetFile (GetFile (StatCache.mk [] 0) ("a")).2 ("a")).2
      = (GetFile (StatCache.mk [] 0) ("a")).2 ∧
    (lookupPath (StatCache.mk [] 0).paths ("a") = none →
      (GetFile (StatCache.mk [] 0) ("a")).2.paths
        = (StatCache.mk [] 0).paths ++ [("a", (GetFile (StatCache.mk [] 0) ("a")).1)] ∧
      (GetFile (StatCache.mk [] 0) ("a")).2.paths.length
        = (StatCache.mk [] 0).paths.length + 1) ∧
    (∀ fs, lookupPath (StatCache.mk [] 0).paths ("a") = some fs →
      GetFile (StatCache.mk [] 0) ("a") = (fs, StatCache.mk [] 0)) :=
  GetFile_spec (StatCache.mk [] 0) ("a")

lemma spellcheckLoop_some_spec (d : String → String → Nat) (path : String)
    (full : List (String × FileStat)) :
    ∀ l minDist result, (∀ e ∈ l, e ∈ full) →
      ((result = none ∧ minDist = 4) ∨
        (∃ k fs, result = some fs ∧ (k, fs) ∈ full ∧ fs.node.isSome = true ∧
          d k path = minDist ∧ minDist ≤ 3)) →
      ∀ fs0, spellcheckLoop d path l minDist result = some fs0 →
        ∃ k, (k, fs0) ∈ full ∧ fs0.node.isSome = true ∧ d k path ≤ 3 ∧
          d k path ≤ minDist ∧
          ∀ k2 fs2, (k2, fs2) ∈ l → fs2.node.isSome = true →
            d k path ≤ d k2 path := by
  intro l
  induction l with
  | nil =>
    intro minDist result hsub hinv fs0 hres
    rcases hinv with ⟨hr, hm⟩ | ⟨k, fs, hr, hmem, hnode, hd, hm3⟩
    · rw [hr] at hres
      simp [spellcheckLoop] at hres
    · rw [hr] at hres
      have heq : fs = fs0 := by simpa [spellcheckLoop] using hres
      subst heq
      refine ⟨k, hmem, hnode, by omega, by omega, ?_⟩
      intro k2 fs2 hmem2 _
      simp at hmem2
  | cons a rest ih =>
    obtain ⟨k, fs⟩ := a
    intro minDist result hsub hinv fs0 hres
    have hsub' : ∀ e ∈ rest, e ∈ full := fun e he => hsub e (List.mem_cons_of_mem _ he)
    have hkfull : (k, fs) ∈ full := hsub _ (List.mem_cons_self _ _)
    simp only [spellcheckLoop] at hres
    by_cases hc : d k path < minDist ∧ fs.node.isSome = true
    · rw [if_pos hc] at hres
      have hd3 : d k path ≤ 3 := by
        have hlt := hc.1
        rcases hinv with ⟨_, hm⟩ | ⟨k1, fs1, _, _, _, hd1, hm31⟩
        · omega
        · omega
      obtain ⟨k0, hmem0, hnode0, h30, hle0, hmin0⟩ := ih (d k path) (some fs) hsub'
        (Or.inr ⟨k, fs, rfl, hkfull, hc.2, rfl, hd3⟩) fs0 hres
      refine ⟨k0, hmem0, hnode0, h30, by omega, ?_⟩
      intro k2 fs2 hmem2 hnode2
      rcases List.mem_cons.mp hmem2 with h1 | h1
      · have e1 : k2 = k := congrArg Prod.fst h1
        subst e1
        exact hle0
      · exact hmin0 k2 fs2 h1 hnode2
    · rw [if_neg hc] at hres
      obtain ⟨k0, hmem0, hnode0, h30, hle0, hmin0⟩ := ih minDist result hsub' hinv fs0 hres
      refine ⟨k0, hmem0, hnode0, h30, hle0, ?_⟩
      intro k2 fs2 hmem2 hnode2
      rcases List.mem_cons.mp hmem2 with h1 | h1
      · have e1 : k2 = k := congrArg Prod.fst h1
        have e2 : fs2 = fs := congrArg Prod.snd h1
        rw [e1]
        rw [e2] at hnode2
        have hnd : ¬ d k path < minDist := fun hlt => hc ⟨hlt, hnode2⟩
        omega
      · exact hmin0 k2 fs2 h1 hnode2

/-- C10: SpellcheckFile returns NULL unless some cached entry has a
non-null node and distance at most 3 from the query path; any non-NULL
result is a cached FileStat with a non-null node whose distance from the
query is at most 3 and minimal among the qualifying cached entries
scanned.  Stated for an arbitrary edit-distance function `d` (modelled
from the spec; `EditDistance` is outside the excerpt). -/
theorem SpellcheckFile_spec (d : String → String → Nat) (c : StatCache) (path : String) :
    ((∀ k fs, (k, fs) ∈ c.paths → fs.node.isSome = true → ¬ d k path ≤ 3) →
      SpellcheckFile d c path = none) ∧
    ∀ fs, SpellcheckFile d c path = some fs →
      ∃ k, (k, fs) ∈ c.paths ∧ fs.node.isSome = true ∧ d k path ≤ 3 ∧
        ∀ k2 fs2, (k2, fs2) ∈ c.paths → fs2.node.isSome = true →
          d k path ≤ d k2 path := by
  have hmain := spellcheckLoop_some_spec d path c.paths c.paths 4 none
    (fun e he => he) (Or.inl ⟨rfl, rfl⟩)
  constructor
  · intro hno
    cases hres : SpellcheckFile d c path with
    | none => rfl
    | some fs =>
      obtain ⟨k, hmem, hnode, h3, _, _⟩ := hmain fs hres
      exact absurd h3 (hno k fs hmem hnode)
  · intro fs hres
    obtain ⟨k, hmem, hnode, h3, _, hmin⟩ := hmain fs hres
    exact ⟨k, hmem, hnode, h3, hmin⟩

/-- A concrete distance function for the C10 witness. -/
def spellDW : String → String → Nat := fun k q => if k = q then 0 else 10

/-- Witness for C10 on a concrete cache and distance function. -/
theorem SpellcheckFile_spec_witness :
    ((∀ k fs, (k, fs) ∈ (StatCache.mk [("ab", FileStat.mk 0 ("ab") (some 1))] 1).paths →
        fs.node.isSome = true → ¬ spellDW k ("ab") ≤ 3) →
      SpellcheckFile spellDW (StatCache.mk [("ab", FileStat.mk 0 ("ab") (some 1))] 1)
        ("ab") = none) ∧
    ∀ fs, SpellcheckFile spellDW (StatCache.mk [("ab", FileStat.mk 0 ("ab") (some 1))] 1)
        ("ab") = some fs →
      ∃ k, (k, fs) ∈ (StatCache.mk [("ab", FileStat.mk 0 ("ab") (some 1))] 1).paths ∧
        fs.node.isSome = true ∧ spellDW k ("ab") ≤ 3 ∧
        ∀ k2 fs2, (k2, fs2) ∈ (StatCache.mk [("ab", FileStat.mk 0 ("ab") (some 1))] 1).paths →
          fs2.node.isSome = true → spellDW k ("ab") ≤ spellDW k2 ("ab") :=
  SpellcheckFile_spec spellDW (StatCache.mk [("ab", FileStat.mk 0 ("ab") (some 1))] 1) ("ab")

end NinjaScan
